import Mathlib

/-!
Verification development for the hybrid product-search engine
(`hybrid_search.py`, `hybrid_search_latest.py`, `hybrid_search_simple.py`).

Strings are modelled as `List Char` (ASCII), Python floats as exact
rationals `ℚ`, Python dicts keyed by product id as association lists
`List (Nat × β)` kept in insertion order (which is what iteration over a
Python dict yields), and the two external stores as explicit inputs: every
retrieval routine is embedded as a function of the record set the store
would have returned.  Fields that the source merely copies around and that
never influence a score or an id (descriptions, method tags) are omitted.
-/

namespace HybridSearch

/-- Whitespace characters recognised by Python `str.split()` / `str.strip()`
for ASCII text. -/
def isWs (c : Char) : Bool :=
  c = ' ' || c = '\t' || c = '\n' || c = '\r' || c.toNat = 11 || c.toNat = 12

/-- Character class of the regex `[A-Z0-9]` used by the product-code
patterns (the query has been uppercased first). -/
def isAlnumUp (c : Char) : Bool :=
  (65 ≤ c.toNat && c.toNat ≤ 90) || (48 ≤ c.toNat && c.toNat ≤ 57)

/-- Regex word characters `\w` for ASCII: letters, digits and underscore. -/
def isWordCh (c : Char) : Bool :=
  (65 ≤ c.toNat && c.toNat ≤ 90) || (97 ≤ c.toNat && c.toNat ≤ 122) ||
    (48 ≤ c.toNat && c.toNat ≤ 57) || c = '_'

/-- Uppercase letters `[A-Z]`. -/
def isUpperAlphaCh (c : Char) : Bool := 65 ≤ c.toNat && c.toNat ≤ 90

/-- Digits `[0-9]`. -/
def isDigitCh (c : Char) : Bool := 48 ≤ c.toNat && c.toNat ≤ 57

/-- Python `str.upper()` on ASCII text. -/
def pyUpper (s : List Char) : List Char :=
  s.map fun c => if 97 ≤ c.toNat && c.toNat ≤ 122 then Char.ofNat (c.toNat - 32) else c

/-- Python `str.lower()` on ASCII text. -/
def pyLower (s : List Char) : List Char :=
  s.map fun c => if 65 ≤ c.toNat && c.toNat ≤ 90 then Char.ofNat (c.toNat + 32) else c

/-- Python `str.strip()`: drop leading and trailing whitespace. -/
def pyStrip (s : List Char) : List Char :=
  ((s.dropWhile isWs).reverse.dropWhile isWs).reverse

/-- Python `str.split()` with no argument: split on whitespace runs and drop
all empty pieces. -/
def wsSplit (s : List Char) : List (List Char) :=
  (s.splitOnP isWs).filter (fun w => w ≠ [])

/-- Substring test: `pat in s` for Python strings.  `startsWithL s pat`
says `pat` is an initial segment of `s`. -/
def startsWithL : List Char → List Char → Bool
  | _, [] => true
  | [], _ :: _ => false
  | c :: cs, d :: ds => c = d && startsWithL cs ds

/-- Substring containment `pat in s` (Python `in` on strings). -/
def containsSeg (pat : List Char) : List Char → Bool
  | [] => startsWithL [] pat
  | c :: t => startsWithL (c :: t) pat || containsSeg pat t

/-! Embedding of the first product-code regex of
`HybridSearchSystem.analyze_query` (hybrid_search.py line 61):
`\b[A-Z0-9]+(?:-[A-Z0-9]+)+\b`, run with `re.findall` over the uppercased
query; only non-emptiness of the match list is consumed.  The scanners
below implement the backtracking semantics: a match starts at a word
boundary on an alphanumeric character, and after the first run at least
one `-run` group must be completed before a word boundary. -/

/-- Inside the second or later alphanumeric group of the hyphenated-code
pattern, at least one character consumed: the match can close at the end of
the string or before any non-word character (including a further `-`). -/
def hyRunK : List Char → Bool
  | [] => true
  | c :: rest => if isAlnumUp c then hyRunK rest else !isWordCh c

/-- Directly after a `-` of the hyphenated-code pattern: one more
alphanumeric run must follow. -/
def hgAfterDash : List Char → Bool
  | [] => false
  | c :: rest => isAlnumUp c && hyRunK rest

/-- Inside the first alphanumeric run (at least one character consumed):
the pattern only succeeds if a `-` group follows. -/
def hyRun1 : List Char → Bool
  | [] => false
  | c :: rest => if isAlnumUp c then hyRun1 rest else c = '-' && hgAfterDash rest

/-- Scan of `\b[A-Z0-9]+(?:-[A-Z0-9]+)+\b`: `prev` records whether the
previous character was a word character (no boundary then). -/
def scanHyphen : Bool → List Char → Bool
  | _, [] => false
  | prev, c :: rest =>
    (!prev && isAlnumUp c && hyRun1 rest) || scanHyphen (isWordCh c) rest

/-- Non-emptiness of `re.findall(r'\b[A-Z0-9]+(?:-[A-Z0-9]+)+\b', s)`. -/
def matchesHyphenCode (s : List Char) : Bool := scanHyphen false s

/-- Word boundary after a match: end of string or a non-word character. -/
def boundaryAfter : List Char → Bool
  | [] => true
  | c :: _ => !isWordCh c

/-- Match attempt of `\b(?=.*[A-Z])(?=.*[0-9])[A-Z0-9]{4,}\b` at the head
of `l` (the boundary before `l` is checked by the caller).  The two
lookaheads scan the remainder of the string up to the next newline — not
just the matched token — which is exactly what the source regex does. -/
def mixedAt (l : List Char) : Bool :=
  let run := l.takeWhile isAlnumUp
  4 ≤ run.length && boundaryAfter (l.drop run.length) &&
    (let win := l.takeWhile (fun c => c ≠ '\n')
     win.any isUpperAlphaCh && win.any isDigitCh)

/-- Scan of `\b(?=.*[A-Z])(?=.*[0-9])[A-Z0-9]{4,}\b`. -/
def scanMixed : Bool → List Char → Bool
  | _, [] => false
  | prev, c :: rest =>
    (!prev && isAlnumUp c && mixedAt (c :: rest)) || scanMixed (isWordCh c) rest

/-- Non-emptiness of `re.findall(r'\b(?=.*[A-Z])(?=.*[0-9])[A-Z0-9]{4,}\b', s)`. -/
def matchesMixedCode (s : List Char) : Bool := scanMixed false s

/-- The `has_product_code` flag of `HybridSearchSystem.analyze_query`
(hybrid_search.py lines 59-69): either code pattern matched the uppercased
query. -/
def analyzeHasProductCode (q : List Char) : Bool :=
  matchesHyphenCode (pyUpper q) || matchesMixedCode (pyUpper q)

/-- The `is_descriptive` flag: `len(query.split()) > 5`. -/
def isDescriptive (q : List Char) : Bool := 5 < (wsSplit q).length

/-- Attribute keywords checked by substring containment against the
lowercased query (hybrid_search.py line 72). -/
def attrKeywords : List (List Char) :=
  [("with").data, ("having").data, ("type").data, ("category").data]

/-- The `has_attributes` flag: a `:` or `=` in the raw query, or one of the
fixed keywords occurring inside the lowercased query. -/
def hasAttributes (q : List Char) : Bool :=
  q.contains ':' || q.contains '=' ||
    attrKeywords.any (fun w => containsSeg w (pyLower q))

/-- Weight selection of `HybridSearchSystem.hybrid_search`
(hybrid_search.py lines 230-255): `(neo4j_weight, qdrant_weight)` chosen by
the priority order code / descriptive / attribute / default. -/
def selectWeights (q : List Char) : ℚ × ℚ :=
  if analyzeHasProductCode q then (4/5, 1/5)
  else if isDescriptive q then (3/10, 7/10)
  else if hasAttributes q then (7/10, 3/10)
  else (1/2, 1/2)

/-- C1 (code_bug evidence): weight selection evaluated on the spec's four
query classes.  `"AIUR-06-102J"` and `"crane"` behave as claimed, but
`"capacity: 5 tons"` is classified as a product-code query — the mixed
alphanumeric regex finds `CAPACITY` because its lookaheads scan the whole
remaining string, where the later `5` supplies the required digit — so the
code picks weights (0.8, 0.2) where the claim requires (0.7, 0.3); the
8-token code-free query `"paint them in bright gold for 6 euros"` is
likewise classified as a code query and gets (0.8, 0.2) instead of the
claimed (0.3, 0.7). -/
theorem analyze_query_weight_selection_eval :
    selectWeights (("AIUR-06-102J").data) = (4/5, 1/5) ∧
    selectWeights (("crane").data) = (1/2, 1/2) ∧
    analyzeHasProductCode (("capacity: 5 tons").data) = true ∧
    selectWeights (("capacity: 5 tons").data) = (4/5, 1/5) ∧
    analyzeHasProductCode (("paint them in bright gold for 6 euros").data) = true ∧
    selectWeights (("paint them in bright gold for 6 euros").data) = (4/5, 1/5) := by
  have h1 : analyzeHasProductCode (("AIUR-06-102J").data) = true := by decide
  have h2 : analyzeHasProductCode (("crane").data) = false := by decide
  have h3 : isDescriptive (("crane").data) = false := by decide
  have h4 : hasAttributes (("crane").data) = false := by decide
  have h5 : analyzeHasProductCode (("capacity: 5 tons").data) = true := by decide
  have h6 : analyzeHasProductCode (("paint them in bright gold for 6 euros").data) = true := by
    decide
  refine ⟨?_, ?_, h5, ?_, h6, ?_⟩ <;>
    simp [selectWeights, h1, h2, h3, h4, h5, h6]

/-! Association lists with Nat keys model the Python dicts keyed by
product id.  `afind` is `d.get(pid)` / `pid in d`, `aset` is an in-place
update of the entry (Python dicts keep insertion order, so the entry stays
where it is), and appending models inserting a fresh key at the end. -/

/-- Lookup of the first entry with the given key. -/
def afind {β : Type} (p : Nat) : List (Nat × β) → Option β
  | [] => none
  | (q, v) :: t => if q = p then some v else afind p t

/-- In-place update of every entry with the given key (a Python dict holds
at most one). -/
def aset {β : Type} (p : Nat) (f : β → β) : List (Nat × β) → List (Nat × β)
  | [] => []
  | (q, v) :: t => (if q = p then (q, f v) else (q, v)) :: aset p f t

/-- One iteration of the ubiquitous dict-upsert loop: if the key is
present, replace its value with `fOld old x`; otherwise append the entry
`(key x, fNew x)`. -/
def dstep {β γ : Type} (fNew : γ → β) (fOld : β → γ → β) (key : γ → Nat)
    (acc : List (Nat × β)) (x : γ) : List (Nat × β) :=
  match afind (key x) acc with
  | some w => aset (key x) (fun _ => fOld w x) acc
  | none => acc ++ [(key x, fNew x)]

/-- Python `enumerate(lst, n)`. -/
def enumFrom {α : Type} (n : Nat) : List α → List (Nat × α)
  | [] => []
  | x :: t => (n, x) :: enumFrom (n + 1) t

theorem afind_aset_self {β : Type} (p : Nat) (f : β → β) (l : List (Nat × β)) :
    afind p (aset p f l) = (afind p l).map f := by
  induction l with
  | nil => rfl
  | cons e t ih =>
    obtain ⟨q, v⟩ := e
    simp only [aset]
    by_cases h : q = p
    · subst h; rw [if_pos rfl]; simp [afind]
    · rw [if_neg h]; simp [afind, h, ih]

theorem afind_aset_of_ne {β : Type} {q p : Nat} (h : q ≠ p) (f : β → β)
    (l : List (Nat × β)) : afind p (aset q f l) = afind p l := by
  induction l with
  | nil => rfl
  | cons e t ih =>
    obtain ⟨r, v⟩ := e
    simp only [aset]
    by_cases hr : r = q
    · subst hr
      rw [if_pos rfl]
      simp [afind, h, ih]
    · rw [if_neg hr]
      by_cases hp : r = p <;> simp [afind, hp, ih]

theorem afind_append_of_none {β : Type} {p : Nat} {l₁ : List (Nat × β)}
    (h : afind p l₁ = none) (l₂ : List (Nat × β)) :
    afind p (l₁ ++ l₂) = afind p l₂ := by
  induction l₁ with
  | nil => rfl
  | cons e t ih =>
    obtain ⟨q, v⟩ := e
    by_cases hq : q = p <;> simp_all [afind]

theorem afind_append_of_some {β : Type} {p : Nat} {l₁ : List (Nat × β)} {v : β}
    (h : afind p l₁ = some v) (l₂ : List (Nat × β)) :
    afind p (l₁ ++ l₂) = some v := by
  induction l₁ with
  | nil => simp [afind] at h
  | cons e t ih =>
    obtain ⟨q, w⟩ := e
    by_cases hq : q = p <;> simp_all [afind]

theorem afind_dstep_key {β γ : Type} (fNew : γ → β) (fOld : β → γ → β)
    (key : γ → Nat) (acc : List (Nat × β)) (x : γ) :
    afind (key x) (dstep fNew fOld key acc x) =
      some ((afind (key x) acc).elim (fNew x) (fun w => fOld w x)) := by
  unfold dstep
  cases h : afind (key x) acc with
  | none => simp [afind_append_of_none h, afind]
  | some w => simp [afind_aset_self, h]

theorem afind_dstep_of_ne {β γ : Type} {p : Nat} (fNew : γ → β) (fOld : β → γ → β)
    (key : γ → Nat) (acc : List (Nat × β)) (x : γ) (h : key x ≠ p) :
    afind p (dstep fNew fOld key acc x) = afind p acc := by
  unfold dstep
  cases hx : afind (key x) acc with
  | none =>
    cases hp : afind p acc with
    | none => simp [afind_append_of_none hp, afind, h]
    | some w => simp [afind_append_of_some hp]
  | some w => simp [afind_aset_of_ne h]

theorem afind_foldl_dstep_of_not_mem {β γ : Type} (fNew : γ → β) (fOld : β → γ → β)
    (key : γ → Nat) {p : Nat} :
    ∀ (E : List γ) (acc : List (Nat × β)), p ∉ E.map key →
      afind p (E.foldl (dstep fNew fOld key) acc) = afind p acc := by
  intro E
  induction E with
  | nil => intro acc _; rfl
  | cons e t ih =>
    intro acc h
    simp only [List.map_cons, List.mem_cons, not_or] at h
    rw [List.foldl_cons, ih _ h.2, afind_dstep_of_ne _ _ _ _ _ (fun he => h.1 he.symm)]

theorem afind_foldl_dstep_of_mem {β γ : Type} (fNew : γ → β) (fOld : β → γ → β)
    (key : γ → Nat) {x : γ} :
    ∀ (E : List γ) (acc : List (Nat × β)), x ∈ E → (E.map key).Nodup →
      afind (key x) (E.foldl (dstep fNew fOld key) acc) =
        some ((afind (key x) acc).elim (fNew x) (fun w => fOld w x)) := by
  intro E
  induction E with
  | nil => intro acc h; cases h
  | cons e t ih =>
    intro acc hmem hnd
    simp only [List.map_cons, List.nodup_cons] at hnd
    rcases List.mem_cons.mp hmem with rfl | hx
    · rw [List.foldl_cons,
        afind_foldl_dstep_of_not_mem fNew fOld key t _ hnd.1,
        afind_dstep_key]
    · have hne : key e ≠ key x := fun h => hnd.1 (h ▸ List.mem_map_of_mem key hx)
      rw [List.foldl_cons]
      rw [ih _ hx hnd.2, afind_dstep_of_ne _ _ _ _ _ hne]

/-! Stable descending sort by a rational key: the embedding of Python
`sorted(lst, key=..., reverse=True)` (Timsort is stable, and `reverse=True`
keeps equal-key elements in their original order). -/

/-- Insert `x` behind every element whose key is at least `key x`. -/
def insDesc {α : Type} (key : α → ℚ) (x : α) : List α → List α
  | [] => [x]
  | y :: ys => if key x ≤ key y then y :: insDesc key x ys else x :: y :: ys

/-- Stable descending insertion sort, processing elements in list order. -/
def sortDesc {α : Type} (key : α → ℚ) (l : List α) : List α :=
  l.foldl (fun acc x => insDesc key x acc) []

theorem mem_insDesc {α : Type} {key : α → ℚ} {x a : α} {l : List α} :
    a ∈ insDesc key x l ↔ a = x ∨ a ∈ l := by
  induction l with
  | nil => simp [insDesc]
  | cons y ys ih =>
    by_cases h : key x ≤ key y <;> simp [insDesc, h, ih] ; tauto

theorem pairwise_insDesc {α : Type} {key : α → ℚ} {x : α} {l : List α}
    (h : l.Pairwise (fun a b => key b ≤ key a)) :
    (insDesc key x l).Pairwise (fun a b => key b ≤ key a) := by
  induction l with
  | nil => simp [insDesc]
  | cons y ys ih =>
    rw [List.pairwise_cons] at h
    by_cases hxy : key x ≤ key y
    · rw [insDesc, if_pos hxy, List.pairwise_cons]
      refine ⟨fun b hb => ?_, ih h.2⟩
      rcases mem_insDesc.mp hb with rfl | hb
      · exact hxy
      · exact h.1 b hb
    · rw [insDesc, if_neg hxy, List.pairwise_cons]
      refine ⟨fun b hb => ?_, List.pairwise_cons.mpr h⟩
      rcases List.mem_cons.mp hb with rfl | hb
      · exact le_of_not_le hxy
      · exact (h.1 b hb).trans (le_of_not_le hxy)

theorem pairwise_sortDesc {α : Type} (key : α → ℚ) (l : List α) :
    (sortDesc key l).Pairwise (fun a b => key b ≤ key a) := by
  have main : ∀ (l : List α) (acc : List α),
      acc.Pairwise (fun a b => key b ≤ key a) →
      (l.foldl (fun acc x => insDesc key x acc) acc).Pairwise
        (fun a b => key b ≤ key a) := by
    intro l
    induction l with
    | nil => intro acc h; exact h
    | cons x t ih => intro acc h; exact ih _ (pairwise_insDesc h)
  exact main l [] (by simp)

theorem mem_sortDesc {α : Type} {key : α → ℚ} {a : α} {l : List α} :
    a ∈ sortDesc key l ↔ a ∈ l := by
  have main : ∀ (l acc : List α),
      (a ∈ l.foldl (fun acc x => insDesc key x acc) acc ↔ a ∈ acc ∨ a ∈ l) := by
    intro l
    induction l with
    | nil => intro acc; simp
    | cons x t ih =>
      intro acc
      rw [List.foldl_cons, ih]
      constructor
      · rintro (h | h)
        · rcases mem_insDesc.mp h with rfl | h
          · exact Or.inr (List.mem_cons_self _ _)
          · exact Or.inl h
        · exact Or.inr (List.mem_cons_of_mem _ h)
      · rintro (h | h)
        · exact Or.inl (mem_insDesc.mpr (Or.inr h))
        · rcases List.mem_cons.mp h with rfl | h
          · exact Or.inl (mem_insDesc.mpr (Or.inl rfl))
          · exact Or.inr h
  simpa using main l []

/-! Embedding of `HybridSearchSystem.search_neo4j` (hybrid_search.py lines
102-194).  The three Cypher sub-strategies are external store queries, so
their result sets — pairs of product id and the raw store score — are
inputs; the embedded functions capture how the routine folds them into the
`all_results` dict.  Strategy 1 only inserts new entries (`if pid not in
all_results`), strategy 2 inserts at full weight 2.0 but adds only
0.5 × score to an existing entry, and strategy 3 inserts at 1.5 but adds
only 0.3 × score. -/

/-- Fold of strategy 1 (pre-computed term search, weight ×3.0; duplicates
are ignored, and an existing entry from an earlier strategy keeps its
score). -/
def applyPre (acc : List (Nat × ℚ)) (hits : List (Nat × ℚ)) : List (Nat × ℚ) :=
  hits.foldl (dstep (fun h => 3 * h.2) (fun w _ => w) Prod.fst) acc

/-- Fold of strategy 2 (full-text search): new entries get 2.0 × score,
entries already present only gain 0.5 × score. -/
def applyFull (acc : List (Nat × ℚ)) (hits : List (Nat × ℚ)) : List (Nat × ℚ) :=
  hits.foldl (dstep (fun h => 2 * h.2) (fun w h => w + h.2 / 2) Prod.fst) acc

/-- Fold of strategy 3 (attribute search): new entries get 1.5 × score,
entries already present only gain 0.3 × score. -/
def applyAttr (acc : List (Nat × ℚ)) (hits : List (Nat × ℚ)) : List (Nat × ℚ) :=
  hits.foldl (dstep (fun h => (3/2) * h.2) (fun w h => w + (3/10) * h.2) Prod.fst) acc

/-- The merged per-product `neo4j_score` accumulator of `search_neo4j`,
folding the three strategies in source order. -/
def searchNeo4jMerge (pre full attr : List (Nat × ℚ)) : List (Nat × ℚ) :=
  applyAttr (applyFull (applyPre [] pre) full) attr

/-! Embedding of the weighted reciprocal-rank fusion of
`HybridSearchSystem.hybrid_search` (hybrid_search.py lines 266-315).
Entries of the `combined_scores` dict are reduced to the pair of product id
and `final_score`; the name/description/rank bookkeeping fields carried by
the source never feed back into any score. -/

/-- Reciprocal rank `1.0 / (rank + 10)` with ranks counted from 1. -/
def rrank (rk : Nat) : ℚ := 1 / ((rk : ℚ) + 10)

/-- Python `max(neo4j_score list)` (only evaluated when the list is
non-empty; the source evaluates it inside the loop over a non-empty list). -/
def neoMax : List (Nat × ℚ) → ℚ
  | [] => 0
  | e :: t => t.foldl (fun m x => max m x.2) e.2

/-- The Neo4j-side contribution
`neo4j_weight * (0.7 * rr_score + 0.3 * internal_score)` with
`internal_score = neo4j_score / (max(scores) + 0.001)`. -/
def fuseNeoVal (nw mx : ℚ) (rk : Nat) (s : ℚ) : ℚ :=
  nw * (7/10 * rrank rk + 3/10 * (s / (mx + 1/1000)))

/-- First fusion loop: every enumerated Neo4j result is written into the
dict (plain dict assignment). -/
def fusePhase1 (nw : ℚ) (neo : List (Nat × ℚ)) : List (Nat × ℚ) :=
  (enumFrom 1 neo).foldl
    (dstep (fun e => fuseNeoVal nw (neoMax neo) e.1 e.2.2)
           (fun _ e => fuseNeoVal nw (neoMax neo) e.1 e.2.2)
           (fun e => e.2.1)) []

/-- Second fusion loop over the enumerated Qdrant results: a product
already present gains `qdrant_weight * rr_score` and is then multiplied by
the 1.2 cross-source bonus; a fresh product enters with
`qdrant_weight * rr_score` alone (no bonus, and no score term). -/
def fuse (nw qw : ℚ) (neo qd : List (Nat × ℚ)) : List (Nat × ℚ) :=
  (enumFrom 1 qd).foldl
    (dstep (fun e => qw * rrank e.1)
           (fun w e => (w + qw * rrank e.1) * (6/5))
           (fun e => e.2.1)) (fusePhase1 nw neo)

/-- Final ranking of `hybrid_search`: stable sort of the dict values by
`final_score` descending, truncated to the requested limit. -/
def hybridRanked (nw qw : ℚ) (neo qd : List (Nat × ℚ)) (limit : Nat) : List (Nat × ℚ) :=
  (sortDesc (fun e => e.2) (fuse nw qw neo qd)).take limit

/-- C3 (code_bug evidence): the sub-strategy merge of `search_neo4j` is
neither own-weight additive nor order-independent.  A product returned by
the full-text strategy (raw score 1) and the attribute strategy (raw score
1) accumulates 2.0·1 + 0.3·1 = 2.3 in source order, but folding the same
two strategy results in the opposite order yields 1.5·1 + 0.5·1 = 2.0: the
first strategy to see a product claims its full weight and later ones only
add a fraction, so the per-product score depends on the fold order. -/
theorem lexical_merge_order_dependent_eval :
    afind 1 (searchNeo4jMerge [] [(1, 1)] [(1, 1)]) = some (23/10) ∧
    afind 1 (applyFull (applyAttr (applyPre [] []) [(1, 1)]) [(1, 1)]) = some 2 ∧
    ((23/10 : ℚ) ≠ 2) := by
  refine ⟨?_, ?_, by norm_num⟩ <;>
    norm_num [searchNeo4jMerge, applyPre, applyFull, applyAttr, dstep, afind, aset]

/-- C6 counterexample: two candidates ending with equal `final_score`
(product 5 from the lexical source, product 3 from the semantic source,
both scoring 1/22) are returned in dict-insertion order 5 before 3 — not
in ascending product-id order as the claim demands. -/
theorem tie_order_counterexample :
    hybridRanked (1/2) (1/2) [(5, 1/10000)] [(3, 1)] 10 = [(5, 1/22), (3, 1/22)] ∧
    (3 : Nat) < 5 := by
  refine ⟨?_, by decide⟩
  norm_num [hybridRanked, fuse, fusePhase1, enumFrom, dstep, afind, aset, rrank, neoMax,
    fuseNeoVal, sortDesc, insDesc]

/-- C6 amended: every result list of `hybrid_search` has length at most
the requested limit and non-increasing `final_score` along the sequence
(ties are kept in dict-insertion order by the stable sort, not re-ordered
by product id). -/
theorem ranked_output_sorted_bounded (nw qw : ℚ) (neo qd : List (Nat × ℚ)) (limit : Nat) :
    (hybridRanked nw qw neo qd limit).length ≤ limit ∧
    (hybridRanked nw qw neo qd limit).Pairwise (fun a b => b.2 ≤ a.2) := by
  constructor
  · simp [hybridRanked]
  · exact (pairwise_sortDesc _ _).sublist (List.take_sublist _ _)

/-- C2 counterexample: a candidate present only in the semantic source at
rank 1 receives `qdrant_weight * (1/(1+10)) = 1/22`, not the claimed
`qdrant_weight * (0.7 * (1/(1+10)) + 0.3 * normalized_score)` (the
normalized score of the singleton result set being 1). -/
theorem fusion_semantic_contribution_counterexample :
    afind 3 (fuse (1/2) (1/2) [] [(3, 1)]) = some (1/22) ∧
    ¬ ((1/22 : ℚ) = (1/2) * (7/10 * rrank 1 + 3/10 * 1)) := by
  constructor
  · norm_num [fuse, fusePhase1, enumFrom, dstep, afind, rrank]
  · norm_num [rrank]

theorem enumFrom_map_key (n : Nat) (l : List (Nat × ℚ)) :
    (enumFrom n l).map (fun e => e.2.1) = l.map Prod.fst := by
  induction l generalizing n with
  | nil => rfl
  | cons x t ih => simp [enumFrom, ih]

/-- C2 amended: in general fusion with duplicate-free id lists, a
candidate only in the lexical source contributes
`neo4j_weight * (0.7/(rank+10) + 0.3 * score/(max_score+0.001))`; a
candidate only in the semantic source contributes
`qdrant_weight * 1/(rank+10)` with no score term; a candidate in both sums
the two contributions and is multiplied by the 1.2 cross-source bonus,
while single-source candidates get no bonus. -/
theorem fuse_contribution_formula (nw qw : ℚ) (neo qd : List (Nat × ℚ))
    (hn : (neo.map Prod.fst).Nodup) (hq : (qd.map Prod.fst).Nodup)
    (p rkN rkQ : Nat) (s t : ℚ) :
    ((rkN, (p, s)) ∈ enumFrom 1 neo → p ∉ qd.map Prod.fst →
      afind p (fuse nw qw neo qd) = some (fuseNeoVal nw (neoMax neo) rkN s)) ∧
    ((rkQ, (p, t)) ∈ enumFrom 1 qd → p ∉ neo.map Prod.fst →
      afind p (fuse nw qw neo qd) = some (qw * rrank rkQ)) ∧
    ((rkN, (p, s)) ∈ enumFrom 1 neo → (rkQ, (p, t)) ∈ enumFrom 1 qd →
      afind p (fuse nw qw neo qd) =
        some ((fuseNeoVal nw (neoMax neo) rkN s + qw * rrank rkQ) * (6/5))) := by
  have hn' : ((enumFrom 1 neo).map (fun e => e.2.1)).Nodup := by
    rw [enumFrom_map_key]; exact hn
  have hq' : ((enumFrom 1 qd).map (fun e => e.2.1)).Nodup := by
    rw [enumFrom_map_key]; exact hq
  have phase1_mem : ∀ {rk : Nat} {s : ℚ}, (rk, (p, s)) ∈ enumFrom 1 neo →
      afind p (fusePhase1 nw neo) = some (fuseNeoVal nw (neoMax neo) rk s) := by
    intro rk s hmem
    have := afind_foldl_dstep_of_mem
      (fun e => fuseNeoVal nw (neoMax neo) e.1 e.2.2)
      (fun _ e => fuseNeoVal nw (neoMax neo) e.1 e.2.2)
      (fun e => e.2.1) (x := (rk, (p, s))) (enumFrom 1 neo) [] hmem hn'
    simpa [fusePhase1, afind] using this
  have phase1_not : p ∉ neo.map Prod.fst → afind p (fusePhase1 nw neo) = none := by
    intro hp
    have hp' : p ∉ (enumFrom 1 neo).map (fun e => e.2.1) := by
      rw [enumFrom_map_key]; exact hp
    have := afind_foldl_dstep_of_not_mem
      (fun e => fuseNeoVal nw (neoMax neo) e.1 e.2.2)
      (fun _ e => fuseNeoVal nw (neoMax neo) e.1 e.2.2)
      (fun e => e.2.1) (enumFrom 1 neo) [] hp'
    simpa [fusePhase1, afind] using this
  refine ⟨?_, ?_, ?_⟩
  · intro hmem hp
    have hp' : p ∉ (enumFrom 1 qd).map (fun e => e.2.1) := by
      rw [enumFrom_map_key]; exact hp
    have h2 := afind_foldl_dstep_of_not_mem
      (fun e => qw * rrank e.1)
      (fun w e => (w + qw * rrank e.1) * (6/5))
      (fun e => e.2.1) (enumFrom 1 qd) (fusePhase1 nw neo) hp'
    rw [fuse, h2, phase1_mem hmem]
  · intro hmem hp
    have h2 := afind_foldl_dstep_of_mem
      (fun e => qw * rrank e.1)
      (fun w e => (w + qw * rrank e.1) * (6/5))
      (fun e => e.2.1) (x := (rkQ, (p, t))) (enumFrom 1 qd) (fusePhase1 nw neo) hmem hq'
    rw [fuse]
    rw [show ((fun (e : Nat × (Nat × ℚ)) => e.2.1) (rkQ, (p, t))) = p from rfl] at h2
    rw [h2, phase1_not hp]
    rfl
  · intro hmemN hmemQ
    have h2 := afind_foldl_dstep_of_mem
      (fun e => qw * rrank e.1)
      (fun w e => (w + qw * rrank e.1) * (6/5))
      (fun e => e.2.1) (x := (rkQ, (p, t))) (enumFrom 1 qd) (fusePhase1 nw neo) hmemQ hq'
    rw [fuse]
    rw [show ((fun (e : Nat × (Nat × ℚ)) => e.2.1) (rkQ, (p, t))) = p from rfl] at h2
    rw [h2, phase1_mem hmemN]
    rfl

/-- Witness for the amended C2 theorem at a concrete input: lexical result
`(id 1, raw 2)` and semantic result `(id 2, raw 3)` with balanced weights. -/
theorem fuse_contribution_formula_witness :
    afind 1 (fuse (1/2) (1/2) [(1, 2)] [(2, 3)]) =
      some (fuseNeoVal (1/2) (neoMax [(1, 2)]) 1 2) :=
  (fuse_contribution_formula (1/2) (1/2) [(1, 2)] [(2, 3)]
      (by decide) (by decide) 1 1 1 2 3).1
    (by simp [enumFrom]) (by decide)

/-- C8 counterexample: with code-query weights (0.8, 0.2), the candidate
with id 1 appears only in the lexical source (rank 1, normalized internal
score 0) and scores 14/275 ≈ 0.0509, while the candidate with id 9 appears
in both sources (lexical rank 9 with the same internal score 0, semantic
rank 9) and scores only 6/125 = 0.048 even after the 1.2 bonus: the
dual-source candidate ranks strictly below the single-source one. -/
theorem fusion_monotonicity_counterexample :
    afind 1 (fuse (4/5) (1/5)
      [(1, 0), (2, 1), (3, 1), (4, 1), (5, 1), (6, 1), (7, 1), (8, 1), (9, 0)]
      [(101, 1), (102, 1), (103, 1), (104, 1), (105, 1), (106, 1), (107, 1), (108, 1), (9, 1)])
      = some (14/275) ∧
    afind 9 (fuse (4/5) (1/5)
      [(1, 0), (2, 1), (3, 1), (4, 1), (5, 1), (6, 1), (7, 1), (8, 1), (9, 0)]
      [(101, 1), (102, 1), (103, 1), (104, 1), (105, 1), (106, 1), (107, 1), (108, 1), (9, 1)])
      = some (6/125) ∧
    ¬ ((14/275 : ℚ) ≤ 6/125) := by
  refine ⟨?_, ?_, by norm_num⟩ <;>
    norm_num [fuse, fusePhase1, enumFrom, dstep, afind, aset, rrank, neoMax, fuseNeoVal]

/-! Exception flow of the semantic retriever
(`HybridSearchSystem.search_qdrant`, hybrid_search.py lines 196-221; the
same structure appears in `EnhancedHybridSearch.search_qdrant`,
hybrid_search_latest.py lines 478-502).  `query_vector =
self.model.encode(query).tolist()` runs **before** the `try` block, so an
embedding failure propagates; only the vector-store lookup is guarded and
converted to an empty result list.  Both external effects are modelled by
their outcomes: `enc` is the embedding call, `hits` the store lookup. -/

/-- Outcome of `search_qdrant` given the outcomes of its two external
calls. -/
def searchQdrantE (enc : Except (List Char) Unit)
    (hits : Except (List Char) (List (Nat × ℚ))) :
    Except (List Char) (List (Nat × ℚ)) :=
  match enc with
  | .error e => .error e
  | .ok _ =>
    match hits with
    | .error _ => .ok []
    | .ok rs => .ok rs

/-- Outcome of `hybrid_search` (hybrid_search.py lines 223-315): an empty
stripped query returns `[]`; otherwise the Neo4j results (an input, as in
`searchNeo4jMerge`) and the semantic outcome are fused — and because the
call to `search_qdrant` is not guarded, a propagated encoding failure
aborts the whole query, losing the lexical results too. -/
def hybridSearchE (q : List Char) (neo : List (Nat × ℚ))
    (enc : Except (List Char) Unit) (hits : Except (List Char) (List (Nat × ℚ)))
    (limit : Nat) : Except (List Char) (List (Nat × ℚ)) :=
  if pyStrip q = [] then .ok []
  else
    match searchQdrantE enc hits with
    | .error e => .error e
    | .ok qd => .ok (hybridRanked (selectWeights q).1 (selectWeights q).2 neo qd limit)

/-- C4 counterexample: when embedding generation fails, `search_qdrant`
raises the error to its caller instead of returning an empty result set,
and the surrounding `hybrid_search` call aborts, losing the lexical
results as well. -/
theorem embedding_failure_raises_counterexample :
    searchQdrantE (.error (("boom").data)) (.ok [(1, 1)]) = .error (("boom").data) ∧
    hybridSearchE (("crane").data) [(2, 3)] (.error (("boom").data)) (.ok [(1, 1)]) 10 =
      .error (("boom").data) ∧
    (Except.error (("boom").data) ≠
      (Except.ok [] : Except (List Char) (List (Nat × ℚ)))) := by
  refine ⟨rfl, ?_, by simp⟩
  have : pyStrip (("crane").data) = ("crane").data := by decide
  simp [hybridSearchE, searchQdrantE, this]

/-- C4 amended: only failures of the vector-store lookup are contained —
they yield an empty semantic result set and the lexical path still
produces the fused result computed from the Neo4j candidates alone;
failures of embedding generation, by contrast, escape `search_qdrant`
(previous theorem). -/
theorem qdrant_lookup_failure_contained (q : List Char) (neo : List (Nat × ℚ))
    (e : List Char) (limit : Nat) :
    searchQdrantE (.ok ()) (.error e) = .ok [] ∧
    hybridSearchE q neo (.ok ()) (.error e) limit =
      .ok (if pyStrip q = [] then []
           else hybridRanked (selectWeights q).1 (selectWeights q).2 neo [] limit) := by
  refine ⟨rfl, ?_⟩
  by_cases h : pyStrip q = [] <;> simp [hybridSearchE, searchQdrantE, h]

/-! Embedding of `FuzzySearchEnhancer` and `EnhancedHybridSearch`
(hybrid_search_latest.py).  The optional jellyfish/NLTK code paths probe
external libraries at runtime; the in-repo fallback implementations
(`simple_stem`, the vowel-dropping phonetic code, the basic stop-word set)
are embedded, since they are the only implementations present in the
source. -/

/-- Separator class `[\s\-_,;:.()]` of the word-splitting regex. -/
def isSepCh (c : Char) : Bool :=
  isWs c || c = '-' || c = '_' || c = ',' || c = ';' || c = ':' || c = '.' ||
    c = '(' || c = ')'

/-- Splitter for `re.split('[class]+', s)`: separator runs are collapsed
into single cuts, and a leading or trailing separator produces an empty
piece at that edge.  `cur` holds the current piece reversed. -/
def splitPAux (p : Char → Bool) : List Char → List Char → List (List Char)
  | [], cur => [cur.reverse]
  | c :: rest, cur =>
    if p c then
      match rest with
      | [] => [cur.reverse, []]
      | d :: rest2 =>
        if p d then splitPAux p (d :: rest2) cur
        else cur.reverse :: splitPAux p (d :: rest2) []
    else splitPAux p rest (c :: cur)

/-- Python `re.split(r'[\s\-_,;:.()]+', s)`. -/
def splitSep (s : List Char) : List (List Char) := splitPAux isSepCh s []

/-- Membership test of `re.match(r'.*[A-Z0-9]+-[A-Z0-9]+.*', s)`: some
alphanumeric character directly followed by `-` and another alphanumeric
character, with the leading `.*` unable to cross a newline. -/
def hasAlnumHyphenAlnum : List Char → Bool
  | a :: b :: c :: rest =>
    (isAlnumUp a && b = '-' && isAlnumUp c) || hasAlnumHyphenAlnum (b :: c :: rest)
  | _ => false

/-- The `is_product_code_query` flag of
`FuzzySearchEnhancer.normalize_search_input_enhanced`
(hybrid_search_latest.py line 165): the hyphenated-code regex matched the
uppercased query. -/
def isProductCodeQuery (q : List Char) : Bool :=
  hasAlnumHyphenAlnum ((pyUpper q).takeWhile (fun c => c ≠ '\n'))

/-- Python `code.split('-')` (no run collapsing). -/
def splitHy : List Char → List Char → List (List Char)
  | [], cur => [cur.reverse]
  | c :: rest, cur =>
    if c = '-' then cur.reverse :: splitHy rest [] else splitHy rest (c :: cur)

/-- Python `'-'.join(parts)`. -/
def joinDash : List (List Char) → List Char
  | [] => []
  | [x] => x
  | x :: y :: t => x ++ '-' :: joinDash (y :: t)

/-- Alternating segment case used for the second mixed-case variation. -/
def altCase : Nat → List (List Char) → List (List Char)
  | _, [] => []
  | i, p :: t => (if i % 2 = 0 then pyUpper p else pyLower p) :: altCase (i + 1) t

/-- The variation set built by
`FuzzySearchEnhancer._generate_enhanced_code_variations`
(hybrid_search_latest.py lines 213-249), as a list; the source collects
the same strings into a Python set. -/
def genCodeVariations (code : List Char) : List (List Char) :=
  let nh := code.filter (fun c => c ≠ '-')
  let sp := code.map (fun c => if c = '-' then ' ' else c)
  let us := code.map (fun c => if c = '-' then '_' else c)
  let dot := code.map (fun c => if c = '-' then '.' else c)
  let base := [pyUpper code, pyLower code, code, pyUpper nh, pyLower nh,
    pyUpper sp, pyLower sp, pyUpper us, pyLower us, pyUpper dot, pyLower dot]
  if code.contains '-' then
    match splitHy code [] with
    | [] => base
    | p0 :: rest =>
      if rest = [] then base
      else base ++ [joinDash (pyUpper p0 :: rest.map pyLower),
                    joinDash (altCase 0 (p0 :: rest))]
  else base

/-- The basic stop-word set `_get_basic_stopwords`
(hybrid_search_latest.py lines 75-79). -/
def stopBasic : List (List Char) :=
  [("a").data, ("an").data, ("and").data, ("are").data, ("as").data, ("at").data,
   ("be").data, ("by").data, ("for").data, ("from").data, ("the").data, ("to").data,
   ("of").data, ("in").data, ("is").data, ("it").data, ("on").data, ("that").data,
   ("this").data, ("with").data, ("or").data, ("but").data, ("not").data, ("can").data,
   ("will").data, ("has").data, ("have").data, ("had").data, ("was").data, ("were").data]

/-- The misspelling dictionary `common_misspellings`
(hybrid_search_latest.py lines 55-73); duplicate literal keys collapse as
in a Python dict literal. -/
def misspellings : List (List Char × List Char) :=
  [(("labtop").data, ("laptop").data), (("laptpo").data, ("laptop").data),
   (("laptp").data, ("laptop").data),
   (("wireles").data, ("wireless").data), (("wirless").data, ("wireless").data),
   (("wirelss").data, ("wireless").data),
   (("computor").data, ("computer").data), (("compter").data, ("computer").data),
   (("computr").data, ("computer").data),
   (("keboard").data, ("keyboard").data), (("keybaord").data, ("keyboard").data),
   (("keybord").data, ("keyboard").data),
   (("accesory").data, ("accessory").data), (("accessry").data, ("accessory").data),
   (("accesorry").data, ("accessory").data),
   (("conector").data, ("connector").data), (("connectr").data, ("connector").data),
   (("connctor").data, ("connector").data),
   (("reciver").data, ("receiver").data), (("reciever").data, ("receiver").data),
   (("recever").data, ("receiver").data),
   (("transmiter").data, ("transmitter").data),
   (("elecric").data, ("electric").data), (("elctric").data, ("electric").data),
   (("electirc").data, ("electric").data),
   (("baterry").data, ("battery").data), (("batery").data, ("battery").data),
   (("battry").data, ("battery").data),
   (("chargr").data, ("charger").data), (("charger").data, ("charger").data),
   (("chager").data, ("charger").data),
   (("adaptr").data, ("adapter").data), (("adaptor").data, ("adapter").data),
   (("adpater").data, ("adapter").data),
   (("cabl").data, ("cable").data), (("cabel").data, ("cable").data),
   (("calbe").data, ("cable").data),
   (("devic").data, ("device").data), (("deivce").data, ("device").data),
   (("divice").data, ("device").data),
   (("netwrk").data, ("network").data), (("netowrk").data, ("network").data),
   (("netowork").data, ("network").data),
   (("memorry").data, ("memory").data), (("memroy").data, ("memory").data),
   (("memeory").data, ("memory").data),
   (("storag").data, ("storage").data), (("storeage").data, ("storage").data),
   (("storge").data, ("storage").data)]

/-- Lookup in the misspelling dictionary. -/
def mlookup (w : List Char) : List (List Char × List Char) → Option (List Char)
  | [] => none
  | (k, v) :: t => if k = w then some v else mlookup w t

/-- Suffix table of `FuzzySearchEnhancer.simple_stem` (first matching rule
wins). -/
def suffixRules : List (List Char × Nat) :=
  [(("ing").data, 3), (("ed").data, 2), (("er").data, 2), (("est").data, 3),
   (("ly").data, 2), (("tion").data, 4), (("ness").data, 4), (("ment").data, 4),
   (("able").data, 4), (("ible").data, 4), (("ful").data, 3), (("less").data, 4)]

/-- Python `word.endswith(suffix)`. -/
def endsWithL (s suf : List Char) : Bool :=
  decide (suf.length ≤ s.length) && decide (s.drop (s.length - suf.length) = suf)

/-- Application of the first suffix rule whose minimum length allows it. -/
def applyRules (w : List Char) : List (List Char × Nat) → List Char
  | [] => w
  | (suf, minLen) :: t =>
    if minLen < w.length && endsWithL w suf then w.take (w.length - suf.length)
    else applyRules w t

/-- The fallback stemmer `FuzzySearchEnhancer.simple_stem`
(hybrid_search_latest.py lines 81-98). -/
def simpleStem (w0 : List Char) : List Char :=
  let w := pyLower w0
  if w.length ≤ 3 then w else applyRules w suffixRules

/-- Vowels tested by the fallback phonetic code. -/
def isVowel (c : Char) : Bool :=
  c = 'a' || c = 'e' || c = 'i' || c = 'o' || c = 'u'

/-- The fallback phonetic code of `FuzzySearchEnhancer.get_phonetic_code`
(hybrid_search_latest.py lines 132-144): first character plus the
non-vowel characters of the rest, truncated to four characters and padded
with `0`. -/
def phoneticCode (w0 : List Char) : List Char :=
  let w := pyLower w0
  match w with
  | [] => []
  | c :: rest =>
    let r4 := (c :: rest.filter (fun d => !isVowel d)).take 4
    r4 ++ List.replicate (4 - r4.length) '0'

/-- Set-style add: Python `set.add` modelled on lists by appending only
fresh elements. -/
def sadd (x : List Char) (l : List (List Char)) : List (List Char) :=
  if x ∈ l then l else l ++ [x]

/-- Set-style union keeping first-insertion order. -/
def sunion (l add : List (List Char)) : List (List Char) :=
  add.foldl (fun a x => sadd x a) l

/-- Result dictionary of
`FuzzySearchEnhancer.normalize_search_input_enhanced`. -/
structure TermSets where
  originalTerms : List (List Char)
  correctedTerms : List (List Char)
  stemmedTerms : List (List Char)
  phoneticTerms : List (List Char)
  partialTerms : List (List Char)
  productCodes : List (List Char)
  allTerms : List (List Char)
  isCodeQuery : Bool
deriving DecidableEq

/-- Processing of one word of a non-code query
(hybrid_search_latest.py lines 174-204): skip short words and stop words;
collect the original form, a dictionary correction (with its stem), the
stem, the phonetic code, and partial fragments for longer words. -/
def stepWord (acc : TermSets) (w0 : List Char) : TermSets :=
  let w := pyStrip w0
  if w.length ≤ 1 ∨ w ∈ stopBasic then acc
  else
    let a1 := { acc with originalTerms := sadd w acc.originalTerms }
    let a2 :=
      match mlookup w misspellings with
      | some fix =>
        { a1 with correctedTerms := sadd fix a1.correctedTerms,
                  stemmedTerms := sadd (simpleStem fix) a1.stemmedTerms }
      | none => a1
    let a3 := { a2 with stemmedTerms := sadd (simpleStem w) a2.stemmedTerms }
    let a4 := { a3 with phoneticTerms := sadd (phoneticCode w) a3.phoneticTerms }
    if 4 < w.length then
      let p1 := sadd (w.take 3) a4.partialTerms
      let p2 := sadd (w.drop (w.length - 3)) p1
      if 6 < w.length then
        let p3 := sadd (w.take 4) p2
        let p4 := sadd (w.drop (w.length - 4)) p3
        let p5 := sadd ((w.drop 1).dropLast) p4
        { a4 with partialTerms := p5 }
      else { a4 with partialTerms := p2 }
    else a4

/-- Embedding of `normalize_search_input_enhanced`
(hybrid_search_latest.py lines 146-211): product-code queries return early
with only the code variations; other queries run the full fuzzy pipeline
and union every non-code category into `allTerms`. -/
def normalizeSearchInputEnhanced (q : List Char) : TermSets :=
  let qClean := pyLower (pyStrip q)
  let orig := sadd (pyStrip q) (sadd qClean [])
  if isProductCodeQuery q then
    { originalTerms := sadd (pyStrip q) orig,
      correctedTerms := [], stemmedTerms := [], phoneticTerms := [],
      partialTerms := [],
      productCodes := sunion [] (genCodeVariations q),
      allTerms := [], isCodeQuery := true }
  else
    let base : TermSets := ⟨orig, [], [], [], [], [], [], false⟩
    let acc := (splitSep qClean).foldl stepWord base
    { acc with
      allTerms := sunion (sunion (sunion (sunion (sunion [] acc.originalTerms)
        acc.correctedTerms) acc.stemmedTerms) acc.phoneticTerms) acc.partialTerms }

/-- Candidate record of the enhanced engine's `combined_results` dict
(id is the association-list key): name, normalized per-source scores, the
running `combined_score` and the reported `fuzzy_bonus`. -/
structure CVal where
  name : List Char
  neoScore : ℚ
  qdrantScore : ℚ
  combined : ℚ
  fuzzyBonus : ℚ
deriving DecidableEq

/-- Python `min` over the raw scores of a retriever result set (id, name,
score); only used on non-empty sets. -/
def scoresMin : List (Nat × List Char × ℚ) → ℚ
  | [] => 0
  | e :: t => t.foldl (fun m x => min m x.2.2) e.2.2

/-- Python `max` over the raw scores. -/
def scoresMax : List (Nat × List Char × ℚ) → ℚ
  | [] => 0
  | e :: t => t.foldl (fun m x => max m x.2.2) e.2.2

/-- Embedding of `normalize_scores` (hybrid_search_latest.py lines
504-520, identical in hybrid_search_simple.py lines 174-190): an empty
collection is returned unchanged; when max equals min every member gets
normalized score 1.0; otherwise `(score - min) / (max - min)`. -/
def normalizeScoresL (l : List (Nat × List Char × ℚ)) : List (Nat × List Char × ℚ) :=
  if l = [] then l
  else if scoresMax l = scoresMin l then l.map (fun h => (h.1, h.2.1, (1 : ℚ)))
  else l.map (fun h => (h.1, h.2.1, (h.2.2 - scoresMin l) / (scoresMax l - scoresMin l)))

/-- Score combination of `enhanced_hybrid_search`
(hybrid_search_latest.py lines 596-622), consuming the normalized result
sets: Neo4j entries enter with `neo4j_weight * normalized`, a Qdrant entry
either completes an existing entry to
`neo4j_weight * neo_score + qdrant_weight * normalized` or enters alone
with `qdrant_weight * normalized`; no cross-source bonus factor exists in
this engine. -/
def combineAll (nw qw : ℚ) (neo qd : List (Nat × List Char × ℚ)) :
    List (Nat × CVal) :=
  qd.foldl
    (dstep (fun h => ⟨h.2.1, 0, h.2.2, qw * h.2.2, 0⟩)
           (fun c h => { c with qdrantScore := h.2.2,
                                combined := nw * c.neoScore + qw * h.2.2 })
           (fun h => h.1))
    (neo.foldl
      (dstep (fun h => ⟨h.2.1, h.2.2, 0, nw * h.2.2, 0⟩)
             (fun _ h => ⟨h.2.1, h.2.2, 0, nw * h.2.2, 0⟩)
             (fun h => h.1)) [])

/-- Deduplication keeping first occurrences: Python `set(...)` built from
a list, with the insertion order recorded. -/
def nubAux (seen : List (List Char)) : List (List Char) → List (List Char)
  | [] => []
  | x :: t => if x ∈ seen then nubAux seen t else x :: nubAux (x :: seen) t

/-- The word set `set(re.split(r'[\s\-_,;:.()]+', s))` used by the
word-overlap bonus. -/
def wordsOf (s : List Char) : List (List Char) := nubAux [] (splitSep s)

/-- Per-candidate fuzzy post-processing of `apply_fuzzy_post_processing`
(hybrid_search_latest.py lines 522-555).  The string-similarity capability
(jellyfish / difflib SequenceMatcher, both external libraries) is passed
in as `sim`; a similarity above 0.6 adds `similarity × 0.3`, and a
positive stop-word-filtered word-overlap fraction adds `overlap × 0.2`. -/
def postStep (sim : List Char → List Char → ℚ) (q : List Char) (e : Nat × CVal) :
    Nat × CVal :=
  let ql := pyLower q
  let nm := pyLower e.2.name
  let s := sim ql nm
  let e1 :=
    if 3/5 < s then
      { e.2 with fuzzyBonus := s * (3/10), combined := e.2.combined + s * (3/10) }
    else { e.2 with fuzzyBonus := 0 }
  let qws := (wordsOf ql).filter (fun w => w ∉ stopBasic)
  let nws := (wordsOf nm).filter (fun w => w ∉ stopBasic)
  let e2 :=
    if qws ≠ [] ∧ nws ≠ [] then
      let ov : ℚ := ((qws.filter (fun w => w ∈ nws)).length : ℚ) / (qws.length : ℚ)
      if 0 < ov then { e1 with combined := e1.combined + ov * (1/5) } else e1
    else e1
  (e.1, e2)

/-- Fuzzy post-processing applied to every candidate of the combined
dict. -/
def postProcess (sim : List Char → List Char → ℚ) (q : List Char)
    (l : List (Nat × CVal)) : List (Nat × CVal) :=
  l.map (postStep sim q)

/-- Degenerate similarity capability (never fires the 0.6 threshold); used
to instantiate `sim` in concrete evaluations. -/
def simZero : List Char → List Char → ℚ := fun _ _ => 0

/-- Embedding of `enhanced_hybrid_search` (hybrid_search_latest.py lines
557-634).  The store results are inputs: `neo` is what
`search_neo4j_enhanced` returned (for a code query that is the exact
product-code search), `qd` what `search_qdrant` returned.  A query whose
`is_product_code_query` flag is set skips the semantic source entirely and
returns the top 15 candidates by normalized lexical score; otherwise both
sources are normalized, combined, fuzzily post-processed, sorted and cut
to 15. -/
def enhancedHybridSearch (sim : List Char → List Char → ℚ) (nw qw : ℚ)
    (q : List Char) (neo qd : List (Nat × List Char × ℚ)) : List (Nat × CVal) :=
  if pyStrip q = [] then []
  else if isProductCodeQuery q then
    if neo = [] then []
    else
      (sortDesc (fun e => e.2.combined)
        ((normalizeScoresL neo).map (fun h => (h.1, ⟨h.2.1, h.2.2, 0, h.2.2, 0⟩)))).take 15
  else
    (sortDesc (fun e => e.2.combined)
      (postProcess sim q
        (combineAll nw qw (normalizeScoresL neo) (normalizeScoresL qd)))).take 15

/-- C9: the code-variation generator applied to `"CX-112"` contains the six
required variants (hyphen, no separator and space separator, each in upper
and lower case). -/
theorem code_variations_cx112 :
    (("CX-112").data) ∈ genCodeVariations (("CX-112").data) ∧
    (("cx-112").data) ∈ genCodeVariations (("CX-112").data) ∧
    (("CX112").data) ∈ genCodeVariations (("CX-112").data) ∧
    (("cx112").data) ∈ genCodeVariations (("CX-112").data) ∧
    (("CX 112").data) ∈ genCodeVariations (("CX-112").data) ∧
    (("cx 112").data) ∈ genCodeVariations (("CX-112").data) := by
  refine ⟨?_, ?_, ?_, ?_, ?_, ?_⟩ <;> decide

/-- C10: the two code-detection predicates disagree on `"ABC123"` — the
analyzer of hybrid_search.py flags it as a product code, while the
enhanced normalizer requires a hyphen, so it keeps
`is_product_code_query = false`, leaves `product_codes` empty, runs the
full fuzzy pipeline (the lower-cased token and its 3-character fragments
appear in the fuzzy term sets), and the exact-match short-circuit of
`enhanced_hybrid_search` does not fire: a semantic-only candidate is still
returned. -/
theorem code_predicates_disagree_abc123 :
    analyzeHasProductCode (("ABC123").data) = true ∧
    (normalizeSearchInputEnhanced (("ABC123").data)).isCodeQuery = false ∧
    (normalizeSearchInputEnhanced (("ABC123").data)).productCodes = [] ∧
    (("abc123").data) ∈ (normalizeSearchInputEnhanced (("ABC123").data)).allTerms ∧
    (("abc").data) ∈ (normalizeSearchInputEnhanced (("ABC123").data)).partialTerms ∧
    (enhancedHybridSearch simZero (3/5) (2/5) (("ABC123").data) []
      [(7, (("y").data), 1)]).map Prod.fst = [7] := by
  refine ⟨by decide, by decide, by decide, by decide, by decide, ?_⟩
  have h1 : pyStrip (("ABC123").data) = (("ABC123").data) := by decide
  have h2 : isProductCodeQuery (("ABC123").data) = false := by decide
  have h4 : normalizeScoresL [(7, (("y").data), 1)] = [(7, (("y").data), 1)] := by
    norm_num [normalizeScoresL, scoresMax, scoresMin]
  simp [enhancedHybridSearch, h1, h2, h4, combineAll, dstep, afind, postProcess,
    postStep, sortDesc, insDesc]

/-- C5 counterexample: `"ABC123"` is classified as a product-code query by
`analyze_query` (`has_product_code = true`), yet the enhanced engine does
not short-circuit for it: with an empty lexical result set and one
semantic hit, the hit with id 9 is returned, while with the semantic
source empty the result is empty — the semantic retriever was consulted,
not skipped. -/
theorem shortcircuit_trigger_counterexample :
    analyzeHasProductCode (("ABC123").data) = true ∧
    (enhancedHybridSearch simZero (3/5) (2/5) (("ABC123").data) []
      [(9, (("y").data), 1)]).map Prod.fst = [9] ∧
    enhancedHybridSearch simZero (3/5) (2/5) (("ABC123").data) [] [] = [] := by
  have h1 : pyStrip (("ABC123").data) = (("ABC123").data) := by decide
  have h2 : isProductCodeQuery (("ABC123").data) = false := by decide
  have h4 : normalizeScoresL [(9, (("y").data), 1)] = [(9, (("y").data), 1)] := by
    norm_num [normalizeScoresL, scoresMax, scoresMin]
  refine ⟨by decide, ?_, ?_⟩
  · simp [enhancedHybridSearch, h1, h2, h4, combineAll, dstep, afind, postProcess,
      postStep, sortDesc, insDesc]
  · simp [enhancedHybridSearch, h1, h2, combineAll, normalizeScoresL, postProcess, sortDesc]

/-- C5 amended: for every query whose `is_product_code_query` flag is set
(the hyphenated-code pattern matched), the enhanced engine ignores the
semantic input and the similarity capability entirely, returns at most 15
candidates ranked by non-increasing combined score, and every returned
candidate's combined score is exactly its normalized lexical score. -/
theorem enhanced_shortcircuit_spec (sim sim' : List Char → List Char → ℚ)
    (nw qw : ℚ) (q : List Char) (neo qd qd' : List (Nat × List Char × ℚ))
    (h : isProductCodeQuery q = true) :
    enhancedHybridSearch sim nw qw q neo qd = enhancedHybridSearch sim' nw qw q neo qd' ∧
    (enhancedHybridSearch sim nw qw q neo qd).length ≤ 15 ∧
    (enhancedHybridSearch sim nw qw q neo qd).Pairwise
      (fun a b => b.2.combined ≤ a.2.combined) ∧
    ∀ e ∈ enhancedHybridSearch sim nw qw q neo qd, e.2.combined = e.2.neoScore := by
  by_cases hstrip : pyStrip q = []
  · simp [enhancedHybridSearch, hstrip]
  · by_cases hneo : neo = []
    · simp [enhancedHybridSearch, hstrip, h, hneo]
    · have hout : enhancedHybridSearch sim nw qw q neo qd =
          (sortDesc (fun e => e.2.combined)
            ((normalizeScoresL neo).map
              (fun h => (h.1, ⟨h.2.1, h.2.2, 0, h.2.2, 0⟩)))).take 15 := by
        simp [enhancedHybridSearch, hstrip, h, hneo]
      have hout' : enhancedHybridSearch sim' nw qw q neo qd' =
          (sortDesc (fun e => e.2.combined)
            ((normalizeScoresL neo).map
              (fun h => (h.1, ⟨h.2.1, h.2.2, 0, h.2.2, 0⟩)))).take 15 := by
        simp [enhancedHybridSearch, hstrip, h, hneo]
      refine ⟨hout.trans hout'.symm, ?_, ?_, ?_⟩
      · simp [hout]
      · rw [hout]
        exact (pairwise_sortDesc _ _).sublist (List.take_sublist _ _)
      · intro e he
        rw [hout] at he
        have he2 := mem_sortDesc.mp ((List.take_sublist _ _).subset he)
        obtain ⟨x, _, hx⟩ := List.mem_map.mp he2
        rw [← hx]

/-- Witness for the amended C5 theorem on the code query `"CX-112"` with
one lexical candidate and differing semantic inputs. -/
theorem enhanced_shortcircuit_spec_witness :
    enhancedHybridSearch simZero 1 1 (("CX-112").data) [(1, [], 2)] [(2, [], 1)] =
      enhancedHybridSearch simZero 1 1 (("CX-112").data) [(1, [], 2)] [] ∧
    (enhancedHybridSearch simZero 1 1 (("CX-112").data) [(1, [], 2)]
        [(2, [], 1)]).length ≤ 15 ∧
    (enhancedHybridSearch simZero 1 1 (("CX-112").data) [(1, [], 2)]
        [(2, [], 1)]).Pairwise (fun a b => b.2.combined ≤ a.2.combined) ∧
    ∀ e ∈ enhancedHybridSearch simZero 1 1 (("CX-112").data) [(1, [], 2)] [(2, [], 1)],
      e.2.combined = e.2.neoScore :=
  enhanced_shortcircuit_spec simZero simZero 1 1 (("CX-112").data)
    [(1, [], 2)] [(2, [], 1)] [] (by decide)

theorem afind_map_entry (G : Nat × List Char × ℚ → List Char × ℚ) :
    ∀ (l : List (Nat × List Char × ℚ)) (x : Nat × List Char × ℚ), x ∈ l →
      (l.map (fun h => h.1)).Nodup →
      afind x.1 (l.map (fun h => (h.1, G h))) = some (G x) := by
  intro l
  induction l with
  | nil => intro x h; cases h
  | cons y t ih =>
    intro x hmem hnd
    simp only [List.map_cons, List.nodup_cons] at hnd
    rcases List.mem_cons.mp hmem with rfl | hx
    · simp [afind]
    · have hne : y.1 ≠ x.1 := fun hEq => hnd.1 (hEq ▸ List.mem_map_of_mem _ hx)
      simp only [List.map_cons, afind, hne, if_false]
      exact ih x hx hnd.2

/-- C7: `normalize_scores` on a non-empty, duplicate-free result set maps
every raw score to `(score - min) / (max - min)`, and assigns 1.0 to every
member when max equals min (so the zero denominator is never touched); in
particular raw scores 2, 4, 6 normalize to 0, 1/2, 1 and raw scores
5, 5, 5 normalize to 1, 1, 1. -/
theorem normalize_scores_spec (l : List (Nat × List Char × ℚ)) (hne : l ≠ [])
    (hnd : (l.map (fun h => h.1)).Nodup) (p : Nat) (nm : List Char) (s : ℚ) :
    (scoresMax l = scoresMin l → (p, nm, s) ∈ l →
      afind p (normalizeScoresL l) = some (nm, 1)) ∧
    (scoresMax l ≠ scoresMin l → (p, nm, s) ∈ l →
      afind p (normalizeScoresL l) =
        some (nm, (s - scoresMin l) / (scoresMax l - scoresMin l))) ∧
    normalizeScoresL [(1, [], 2), (2, [], 4), (3, [], 6)] =
      [(1, [], 0), (2, [], 1/2), (3, [], 1)] ∧
    normalizeScoresL [(1, [], 5), (2, [], 5), (3, [], 5)] =
      [(1, [], 1), (2, [], 1), (3, [], 1)] := by
  refine ⟨?_, ?_, ?_, ?_⟩
  · intro hEq hmem
    rw [normalizeScoresL, if_neg hne, if_pos hEq]
    exact afind_map_entry (fun h => (h.2.1, 1)) l (p, nm, s) hmem hnd
  · intro hNe hmem
    rw [normalizeScoresL, if_neg hne, if_neg hNe]
    exact afind_map_entry
      (fun h => (h.2.1, (h.2.2 - scoresMin l) / (scoresMax l - scoresMin l)))
      l (p, nm, s) hmem hnd
  · rw [normalizeScoresL, if_neg (by simp)]
    norm_num [scoresMin, scoresMax]
  · rw [normalizeScoresL, if_neg (by simp)]
    norm_num [scoresMin, scoresMax]

/-- Witness for the C7 theorem on the constant score collection. -/
theorem normalize_scores_spec_witness :
    afind 2 (normalizeScoresL [(1, [], 5), (2, [], 5), (3, [], 5)]) = some ([], 1) :=
  (normalize_scores_spec [(1, [], 5), (2, [], 5), (3, [], 5)]
      (by simp) (by simp) 2 [] 5).1
    (by simp [scoresMax, scoresMin]) (by simp)

theorem combineAll_afind_neoOnly (nw qw : ℚ) (neo qd : List (Nat × List Char × ℚ))
    (hn : (neo.map (fun h => h.1)).Nodup) {p : Nat} {nm : List Char} {s : ℚ}
    (hpn : (p, nm, s) ∈ neo) (hpq : p ∉ qd.map (fun h => h.1)) :
    afind p (combineAll nw qw neo qd) = some ⟨nm, s, 0, nw * s, 0⟩ := by
  have h1 := afind_foldl_dstep_of_mem
    (fun h : Nat × List Char × ℚ => (⟨h.2.1, h.2.2, 0, nw * h.2.2, 0⟩ : CVal))
    (fun _ h => ⟨h.2.1, h.2.2, 0, nw * h.2.2, 0⟩)
    (fun h => h.1) (x := (p, nm, s)) neo [] hpn hn
  have h2 := afind_foldl_dstep_of_not_mem
    (fun h : Nat × List Char × ℚ => (⟨h.2.1, 0, h.2.2, qw * h.2.2, 0⟩ : CVal))
    (fun c h => { c with qdrantScore := h.2.2,
                         combined := nw * c.neoScore + qw * h.2.2 })
    (fun h => h.1) qd
    (neo.foldl
      (dstep (fun h => ⟨h.2.1, h.2.2, 0, nw * h.2.2, 0⟩)
             (fun _ h => ⟨h.2.1, h.2.2, 0, nw * h.2.2, 0⟩)
             (fun h => h.1)) []) hpq
  rw [combineAll, h2]
  simpa [afind] using h1

theorem combineAll_afind_qdOnly (nw qw : ℚ) (neo qd : List (Nat × List Char × ℚ))
    (hq : (qd.map (fun h => h.1)).Nodup) {p : Nat} {nm : List Char} {t : ℚ}
    (hpq : (p, nm, t) ∈ qd) (hpn : p ∉ neo.map (fun h => h.1)) :
    afind p (combineAll nw qw neo qd) = some ⟨nm, 0, t, qw * t, 0⟩ := by
  have h1 := afind_foldl_dstep_of_not_mem
    (fun h : Nat × List Char × ℚ => (⟨h.2.1, h.2.2, 0, nw * h.2.2, 0⟩ : CVal))
    (fun _ h => ⟨h.2.1, h.2.2, 0, nw * h.2.2, 0⟩)
    (fun h => h.1) neo ([] : List (Nat × CVal)) hpn
  have h2 := afind_foldl_dstep_of_mem
    (fun h : Nat × List Char × ℚ => (⟨h.2.1, 0, h.2.2, qw * h.2.2, 0⟩ : CVal))
    (fun c h => { c with qdrantScore := h.2.2,
                         combined := nw * c.neoScore + qw * h.2.2 })
    (fun h => h.1) (x := (p, nm, t)) qd
    (neo.foldl
      (dstep (fun h => ⟨h.2.1, h.2.2, 0, nw * h.2.2, 0⟩)
             (fun _ h => ⟨h.2.1, h.2.2, 0, nw * h.2.2, 0⟩)
             (fun h => h.1)) []) hpq hq
  rw [combineAll, h2, h1]
  rfl

theorem combineAll_afind_both (nw qw : ℚ) (neo qd : List (Nat × List Char × ℚ))
    (hn : (neo.map (fun h => h.1)).Nodup) (hq : (qd.map (fun h => h.1)).Nodup)
    {p : Nat} {nm nq : List Char} {s t : ℚ}
    (hpn : (p, nm, s) ∈ neo) (hpq : (p, nq, t) ∈ qd) :
    afind p (combineAll nw qw neo qd) = some ⟨nm, s, t, nw * s + qw * t, 0⟩ := by
  have h1 := afind_foldl_dstep_of_mem
    (fun h : Nat × List Char × ℚ => (⟨h.2.1, h.2.2, 0, nw * h.2.2, 0⟩ : CVal))
    (fun _ h => ⟨h.2.1, h.2.2, 0, nw * h.2.2, 0⟩)
    (fun h => h.1) (x := (p, nm, s)) neo [] hpn hn
  have h2 := afind_foldl_dstep_of_mem
    (fun h : Nat × List Char × ℚ => (⟨h.2.1, 0, h.2.2, qw * h.2.2, 0⟩ : CVal))
    (fun c h => { c with qdrantScore := h.2.2,
                         combined := nw * c.neoScore + qw * h.2.2 })
    (fun h => h.1) (x := (p, nq, t)) qd
    (neo.foldl
      (dstep (fun h => ⟨h.2.1, h.2.2, 0, nw * h.2.2, 0⟩)
             (fun _ h => ⟨h.2.1, h.2.2, 0, nw * h.2.2, 0⟩)
             (fun h => h.1)) []) hpq hq
  rw [combineAll, h2]
  simp only [afind, Option.elim] at h1
  simp [h1]

/-- C8 amended: in the enhanced engine's score combination (before the
fuzzy name bonuses), with non-negative weights and non-negative normalized
scores, a candidate present in both sources scores at least as high as a
candidate present in only one source that has the identical per-source
normalized score; the rank-offset fusion of hybrid_search.py does not have
this property (see the counterexample). -/
theorem combine_dual_source_monotone (nw qw : ℚ) (neo qd : List (Nat × List Char × ℚ))
    (hn : (neo.map (fun h => h.1)).Nodup) (hq : (qd.map (fun h => h.1)).Nodup)
    (hnw : 0 ≤ nw) (hqw : 0 ≤ qw) (x y : Nat) (nx nqx ny : List Char) (s t : ℚ)
    (hs : 0 ≤ s) (ht : 0 ≤ t)
    (hxn : (x, nx, s) ∈ neo) (hxq : (x, nqx, t) ∈ qd) :
    ((y, ny, s) ∈ neo → y ∉ qd.map (fun h => h.1) →
      ∃ cx cy, afind x (combineAll nw qw neo qd) = some cx ∧
        afind y (combineAll nw qw neo qd) = some cy ∧ cy.combined ≤ cx.combined) ∧
    ((y, ny, t) ∈ qd → y ∉ neo.map (fun h => h.1) →
      ∃ cx cy, afind x (combineAll nw qw neo qd) = some cx ∧
        afind y (combineAll nw qw neo qd) = some cy ∧ cy.combined ≤ cx.combined) := by
  have hx := combineAll_afind_both nw qw neo qd hn hq hxn hxq
  constructor
  · intro hyn hyq
    refine ⟨_, _, hx, combineAll_afind_neoOnly nw qw neo qd hn hyn hyq, ?_⟩
    exact le_add_of_nonneg_right (mul_nonneg hqw ht)
  · intro hyq hyn
    refine ⟨_, _, hx, combineAll_afind_qdOnly nw qw neo qd hq hyq hyn, ?_⟩
    exact le_add_of_nonneg_left (mul_nonneg hnw hs)

/-- Witness for the amended C8 theorem: candidate 1 in both sources and
candidate 2 lexical-only, all normalized scores 1 and both weights 1. -/
theorem combine_dual_source_monotone_witness :
    ∃ cx cy, afind 1 (combineAll 1 1 [(1, [], 1), (2, [], 1)] [(1, [], 1)]) = some cx ∧
      afind 2 (combineAll 1 1 [(1, [], 1), (2, [], 1)] [(1, [], 1)]) = some cy ∧
      cy.combined ≤ cx.combined :=
  (combine_dual_source_monotone 1 1 [(1, [], 1), (2, [], 1)] [(1, [], 1)]
      (by simp) (by simp) zero_le_one zero_le_one 1 2 [] [] [] 1 1
      zero_le_one zero_le_one (by simp) (by simp)).1
    (by simp) (by simp)

end HybridSearch
